import Mathlib

/-!
Verification development for the sound-field-synthesis core
(driving functions, source selection, tapering, synthesis).

The Python modules `sfs/mono/drivingfunction.py`, `sfs/mono/source.py`,
`sfs/mono/synthesized.py` and `sfs/tapering.py` are shallowly embedded
below: numpy row-wise operations over `(N,3)` arrays become `List`
operations over a `Vec3` record, complex arithmetic lives in `ℂ`, and
numpy special functions that the repository merely calls
(`scipy.special.hankel2`, `sph_jn`/`sph_yn`, `numpy.core.umath_tests.inner1d`
is translated directly) are either translated (`np.kaiser`, `np.diff`,
`np.argmax`, `np.roll`, `np.linspace`) or abstracted as function
parameters (`hankel2`, spherical Hankel tables, `cart2sph`).
-/

set_option maxHeartbeats 1000000

noncomputable section

namespace SFS

/-- A 3-component real vector (one row of an `(N,3)` numpy array). -/
structure Vec3 where
  x : ℝ
  y : ℝ
  z : ℝ

instance : Sub Vec3 := ⟨fun a b => ⟨a.x - b.x, a.y - b.y, a.z - b.z⟩⟩

theorem Vec3.sub_def (a b : Vec3) : a - b = ⟨a.x - b.x, a.y - b.y, a.z - b.z⟩ := rfl

/-- Euclidean inner product of two 3-vectors (`np.inner` on rows,
`inner1d` row-wise). -/
def dot (a b : Vec3) : ℝ := a.x * b.x + a.y * b.y + a.z * b.z

/-- Squared Euclidean norm. -/
def normSq (v : Vec3) : ℝ := dot v v

/-- Euclidean norm of a single row (`np.linalg.norm` on a 1-d array). -/
def vnorm (v : Vec3) : ℝ := Real.sqrt (normSq v)

/-- Modelled from the spec: `util.wavenumber` (the module `sfs/util.py` is
not part of the sources at hand); the spec says "derived wavenumber
k = ω/c". -/
def wavenumber (omega c : ℝ) : ℝ := omega / c

/-! ## `sfs/mono/synthesized.py` -/

/-- The accumulator of `synthesized.generic`.  The Python code starts the
accumulation with the *integer* `0` (`p = 0`) and adds numpy arrays to it;
if no addition ever happens the bare integer is returned, otherwise an
array shaped like the grid.  The two outcomes are distinguishable values. -/
inductive Field where
  | intZero : Field
  | vals : List ℂ → Field

/-- `p += weight * source(...)`: adding a grid-shaped array to the
accumulator.  Adding to the untouched integer `0` yields the array. -/
def fieldAdd : Field → List ℂ → Field
  | Field.intZero, g => Field.vals g
  | Field.vals a, g => Field.vals (List.zipWith (fun u v => u + v) a g)

/-- The Python exception classes `generic` can raise, with their
messages. -/
inductive PyError where
  | valueError : String → PyError
  | typeError : String → PyError
deriving DecidableEq

/-- `sfs.mono.synthesized.generic`.  The grid is embedded as a list of
observation points and the Green's function `source` returns the per-point
complex pressures.  The function's first line,
`d = np.squeeze(np.asarray(d))`, squeezes a length-1 weight vector into a
0-d array, on which the following `len(d)` raises
`TypeError: len() of unsized object` before the length check; for every
other 1-d weight vector the squeeze is the identity and `len(d)` is its
length.  `raise ValueError("length mismatch")` is the validation error. -/
def generic (omega : ℝ) (x0 : List Vec3) (d : List ℂ) (grid : List Vec3) (c : ℝ)
    (source : ℝ → Vec3 → List Vec3 → ℝ → List ℂ) : Except PyError Field :=
  if d.length = 1 then Except.error (PyError.typeError "len() of unsized object")
  else if d.length ≠ x0.length then
    Except.error (PyError.valueError "length mismatch")
  else Except.ok ((d.zip x0).foldl
    (fun p wp =>
      if wp.1 ≠ 0 then fieldAdd p ((source omega wp.2 grid c).map (fun g => wp.1 * g))
      else p)
    Field.intZero)

/-- A fold that skips the elements violating `P` equals the plain fold
over the filtered list. -/
theorem foldl_skip {α β : Type} (P : β → Prop) [DecidablePred P] (g : α → β → α) :
    ∀ (l : List β) (init : α),
      l.foldl (fun p xx => if P xx then g p xx else p) init =
        (l.filter (fun xx => decide (P xx))).foldl g init := by
  intro l
  induction l with
  | nil => intro init; rfl
  | cons a t ih =>
      intro init
      by_cases hP : P a
      · simp only [List.foldl_cons, List.filter_cons, hP, if_true, decide_eq_true_eq,
          if_pos]
        exact ih (g init a)
      · simp only [List.foldl_cons, List.filter_cons, hP, decide_eq_true_eq, if_false,
          if_neg, not_false_iff]
        exact ih init

theorem zip_map_fst_snd {γ δ : Type} : ∀ l : List (γ × δ),
    (l.map Prod.fst).zip (l.map Prod.snd) = l := by
  intro l
  induction l with
  | nil => rfl
  | cons a t ih => simp [List.zip, ih]

/-- C3 (amended): a length-1 weight vector is squeezed to a 0-d array and
`len(d)` raises `TypeError` before the length check; for every weight
vector of any other length, `generic` fails with the ValueError-class
length-mismatch error (and produces no field at all) whenever
`len(d) ≠ len(x0)`, and does not fail when the lengths agree. -/
theorem generic_length_mismatch (omega : ℝ) (x0 : List Vec3) (d : List ℂ)
    (grid : List Vec3) (c : ℝ) (source : ℝ → Vec3 → List Vec3 → ℝ → List ℂ) :
    (d.length = 1 →
      generic omega x0 d grid c source =
        Except.error (PyError.typeError "len() of unsized object")) ∧
    (d.length ≠ 1 → d.length ≠ x0.length →
      generic omega x0 d grid c source =
        Except.error (PyError.valueError "length mismatch")) ∧
    (d.length ≠ 1 → d.length = x0.length →
      ∃ f, generic omega x0 d grid c source = Except.ok f) := by
  refine ⟨?_, ?_, ?_⟩
  · intro h1
    simp [generic, h1]
  · intro h1 h2
    unfold generic
    rw [if_neg h1, if_pos h2]
  · intro h1 h2
    unfold generic
    rw [if_neg h1, if_neg (by simp [h2])]
    exact ⟨_, rfl⟩

/-- C3 counterexample: with the length-1 weight vector `[1]` against an
empty source array (lengths differ), the program raises `TypeError` from
`len` of the squeezed 0-d array, not the claimed ValueError-class
length-mismatch error; and at matching length 1 it raises instead of
computing a field. -/
theorem generic_length_mismatch_counterexample :
    generic 1 [] [(1 : ℂ)] [] 1 (fun _ _ _ _ => []) ≠
      Except.error (PyError.valueError "length mismatch") ∧
    generic 1 [] [(1 : ℂ)] [] 1 (fun _ _ _ _ => []) =
      Except.error (PyError.typeError "len() of unsized object") ∧
    (∀ f : Field, generic 1 [⟨0, 0, 0⟩] [(1 : ℂ)] [] 1 (fun _ _ _ _ => []) ≠
      Except.ok f) := by
  have h1 : generic 1 [] [(1 : ℂ)] [] 1 (fun _ _ _ _ => []) =
      Except.error (PyError.typeError "len() of unsized object") := by
    simp [generic]
  have h2 : generic 1 [⟨0, 0, 0⟩] [(1 : ℂ)] [] 1 (fun _ _ _ _ => []) =
      Except.error (PyError.typeError "len() of unsized object") := by
    simp [generic]
  refine ⟨?_, h1, ?_⟩
  · rw [h1]
    intro hcontra
    exact PyError.noConfusion (Except.error.inj hcontra)
  · intro f hcontra
    rw [h2] at hcontra
    exact Except.noConfusion hcontra

theorem generic_length_mismatch_witness :
    generic 1 [] [(1 : ℂ), 2] [] 1 (fun _ _ _ _ => []) =
      Except.error (PyError.valueError "length mismatch") ∧
    (∃ f, generic 1 ([⟨0, 0, 0⟩, ⟨1, 0, 0⟩] : List Vec3) [(1 : ℂ), 2] [] 1
      (fun _ _ _ _ => []) = Except.ok f) ∧
    generic 1 [⟨0, 0, 0⟩] [(1 : ℂ)] [] 1 (fun _ _ _ _ => []) =
      Except.error (PyError.typeError "len() of unsized object") :=
  ⟨(generic_length_mismatch 1 [] [(1 : ℂ), 2] [] 1 (fun _ _ _ _ => [])).2.1
      (by simp) (by simp),
   (generic_length_mismatch 1 [⟨0, 0, 0⟩, ⟨1, 0, 0⟩] [(1 : ℂ), 2] [] 1
      (fun _ _ _ _ => [])).2.2 (by simp) (by simp),
   (generic_length_mismatch 1 [⟨0, 0, 0⟩] [(1 : ℂ)] [] 1
      (fun _ _ _ _ => [])).1 (by simp)⟩

/-- C5 (amended): deleting every source whose driving weight is exactly
`0` does not change the result of `generic`, provided neither the
original nor the filtered weight vector has length 1 (a length-1 vector
is squeezed to a 0-d array and `generic` raises `TypeError` on it): the
skip of zero weights has no semantic effect on the synthesized field. -/
theorem generic_zero_weight_skip (omega : ℝ) (x0 : List Vec3) (d : List ℂ)
    (grid : List Vec3) (c : ℝ) (source : ℝ → Vec3 → List Vec3 → ℝ → List ℂ)
    (h : d.length = x0.length) (h1 : d.length ≠ 1)
    (h2 : ((d.zip x0).filter (fun wp => decide (wp.1 ≠ 0))).length ≠ 1) :
    generic omega x0 d grid c source =
      generic omega
        (((d.zip x0).filter (fun wp => decide (wp.1 ≠ 0))).map Prod.snd)
        (((d.zip x0).filter (fun wp => decide (wp.1 ≠ 0))).map Prod.fst)
        grid c source := by
  set pairs := (d.zip x0).filter (fun wp => decide (wp.1 ≠ 0)) with hpairs
  have hlen2 : (pairs.map Prod.fst).length = (pairs.map Prod.snd).length := by
    simp
  have hz : (pairs.map Prod.fst).zip (pairs.map Prod.snd) = pairs :=
    zip_map_fst_snd pairs
  have hfil : pairs.filter (fun wp => decide (wp.1 ≠ 0)) = pairs := by
    rw [hpairs, List.filter_filter]
    simp
  unfold generic
  rw [if_neg h1, if_neg (by simp [h]),
    if_neg (by rw [List.length_map]; exact h2), if_neg (by simp [hlen2])]
  congr 1
  rw [hz]
  rw [foldl_skip (fun wp : ℂ × Vec3 => wp.1 ≠ 0)
    (fun p wp => fieldAdd p ((source omega wp.2 grid c).map (fun g => wp.1 * g)))]
  rw [foldl_skip (fun wp : ℂ × Vec3 => wp.1 ≠ 0)
    (fun p wp => fieldAdd p ((source omega wp.2 grid c).map (fun g => wp.1 * g)))]
  rw [hfil, ← hpairs]

/-- C5 counterexample: with weights `[0, 1]`, deleting the zero-weight
source leaves a single source, and the filtered call raises `TypeError`
on the squeezed length-1 weight vector while the original call returns a
synthesized field — the claimed equality fails. -/
theorem generic_zero_weight_skip_counterexample :
    generic 1 ([⟨0, 0, 0⟩, ⟨1, 0, 0⟩] : List Vec3) [(0 : ℂ), 1] [] 1
        (fun _ _ _ _ => []) ≠
      generic 1
        ((([(0 : ℂ), 1].zip ([⟨0, 0, 0⟩, ⟨1, 0, 0⟩] : List Vec3)).filter
            (fun wp => decide (wp.1 ≠ 0))).map Prod.snd)
        ((([(0 : ℂ), 1].zip ([⟨0, 0, 0⟩, ⟨1, 0, 0⟩] : List Vec3)).filter
            (fun wp => decide (wp.1 ≠ 0))).map Prod.fst)
        [] 1 (fun _ _ _ _ => []) := by
  have hfil : ([(0 : ℂ), 1].zip ([⟨0, 0, 0⟩, ⟨1, 0, 0⟩] : List Vec3)).filter
      (fun wp => decide (wp.1 ≠ 0)) = [((1 : ℂ), (⟨1, 0, 0⟩ : Vec3))] := by
    show ([((0 : ℂ), (⟨0, 0, 0⟩ : Vec3)),
        ((1 : ℂ), (⟨1, 0, 0⟩ : Vec3))]).filter (fun wp => decide (wp.1 ≠ 0)) = _
    rw [List.filter_cons, List.filter_cons, List.filter_nil,
      decide_eq_false (by simp : ¬((0 : ℂ) ≠ 0)),
      decide_eq_true (by norm_num : (1 : ℂ) ≠ 0)]
    simp
  have hrhs : generic 1
      ((([(0 : ℂ), 1].zip ([⟨0, 0, 0⟩, ⟨1, 0, 0⟩] : List Vec3)).filter
          (fun wp => decide (wp.1 ≠ 0))).map Prod.snd)
      ((([(0 : ℂ), 1].zip ([⟨0, 0, 0⟩, ⟨1, 0, 0⟩] : List Vec3)).filter
          (fun wp => decide (wp.1 ≠ 0))).map Prod.fst)
      [] 1 (fun _ _ _ _ => []) =
      Except.error (PyError.typeError "len() of unsized object") := by
    rw [hfil]
    simp [generic]
  intro hcontra
  rw [hrhs] at hcontra
  unfold generic at hcontra
  rw [if_neg (by simp), if_neg (by simp)] at hcontra
  exact Except.noConfusion hcontra

theorem generic_zero_weight_skip_witness :
    generic 1 ([⟨0, 0, 0⟩, ⟨1, 0, 0⟩, ⟨2, 0, 0⟩] : List Vec3) [(0 : ℂ), 1, 2] [] 1
        (fun _ _ _ _ => []) =
      generic 1
        ((([(0 : ℂ), 1, 2].zip ([⟨0, 0, 0⟩, ⟨1, 0, 0⟩, ⟨2, 0, 0⟩] : List Vec3)).filter
            (fun wp => decide (wp.1 ≠ 0))).map Prod.snd)
        ((([(0 : ℂ), 1, 2].zip ([⟨0, 0, 0⟩, ⟨1, 0, 0⟩, ⟨2, 0, 0⟩] : List Vec3)).filter
            (fun wp => decide (wp.1 ≠ 0))).map Prod.fst)
        [] 1 (fun _ _ _ _ => []) :=
  generic_zero_weight_skip 1 [⟨0, 0, 0⟩, ⟨1, 0, 0⟩, ⟨2, 0, 0⟩] [(0 : ℂ), 1, 2] [] 1
    (fun _ _ _ _ => []) (by simp) (by simp)
    (by
      have hfil : ([(0 : ℂ), 1, 2].zip
          ([⟨0, 0, 0⟩, ⟨1, 0, 0⟩, ⟨2, 0, 0⟩] : List Vec3)).filter
          (fun wp => decide (wp.1 ≠ 0)) =
          [((1 : ℂ), (⟨1, 0, 0⟩ : Vec3)), ((2 : ℂ), (⟨2, 0, 0⟩ : Vec3))] := by
        show ([((0 : ℂ), (⟨0, 0, 0⟩ : Vec3)), ((1 : ℂ), (⟨1, 0, 0⟩ : Vec3)),
            ((2 : ℂ), (⟨2, 0, 0⟩ : Vec3))]).filter (fun wp => decide (wp.1 ≠ 0)) = _
        rw [List.filter_cons, List.filter_cons, List.filter_cons, List.filter_nil,
          decide_eq_false (by simp : ¬((0 : ℂ) ≠ 0)),
          decide_eq_true (by norm_num : (1 : ℂ) ≠ 0),
          decide_eq_true (by norm_num : (2 : ℂ) ≠ 0)]
        simp
      rw [hfil]
      simp)

/-- C10 (amended): when every weight is exactly `0` and the array has at
least two sources (matching lengths), `generic` returns the untouched
integer accumulator `0`, which is a different value from any grid-shaped
field (in particular from the grid-shaped all-zero field); for a single
source with weight `0` the squeeze makes `len(d)` raise `TypeError`
instead. -/
theorem generic_all_zero_weights (omega : ℝ) (x0 : List Vec3) (d : List ℂ)
    (grid : List Vec3) (c : ℝ) (source : ℝ → Vec3 → List Vec3 → ℝ → List ℂ)
    (h : d.length = x0.length) (h2 : 2 ≤ d.length)
    (hz : ∀ w ∈ d, w = 0) :
    generic omega x0 d grid c source = Except.ok Field.intZero ∧
      ∀ l : List ℂ, Field.intZero ≠ Field.vals l := by
  constructor
  · unfold generic
    rw [if_neg (by omega), if_neg (by simp [h])]
    rw [foldl_skip (fun wp : ℂ × Vec3 => wp.1 ≠ 0)
      (fun p wp => fieldAdd p ((source omega wp.2 grid c).map (fun g => wp.1 * g)))]
    have : (d.zip x0).filter (fun wp => decide (wp.1 ≠ 0)) = [] := by
      rw [List.filter_eq_nil_iff]
      intro a ha
      have := List.of_mem_zip ha
      simp [hz a.1 this.1]
    rw [this]
    rfl
  · intro l hcontra
    exact Field.noConfusion hcontra

/-- C10 counterexample: at a one-source array with the single weight `0`,
the program raises `TypeError` from `len` of the squeezed 0-d weight
array instead of returning the scalar integer accumulator `0`. -/
theorem generic_all_zero_weights_counterexample :
    generic 1 ([⟨0, 0, 0⟩] : List Vec3) [(0 : ℂ)] [⟨2, 0, 0⟩] 1
        (fun _ _ _ _ => [(1 : ℂ)]) =
      Except.error (PyError.typeError "len() of unsized object") ∧
    ∀ fl : Field,
      (Except.error (PyError.typeError "len() of unsized object") :
        Except PyError Field) ≠ Except.ok fl :=
  ⟨by simp [generic], fun fl hcontra => Except.noConfusion hcontra⟩

theorem generic_all_zero_weights_witness :
    generic 1 [⟨0, 0, 0⟩, ⟨1, 0, 0⟩] [(0 : ℂ), 0] [⟨2, 0, 0⟩] 1
        (fun _ _ _ _ => [(1 : ℂ)]) = Except.ok Field.intZero ∧
      ∀ l : List ℂ, Field.intZero ≠ Field.vals l :=
  generic_all_zero_weights 1 [⟨0, 0, 0⟩, ⟨1, 0, 0⟩] [(0 : ℂ), 0] [⟨2, 0, 0⟩] 1
    (fun _ _ _ _ => [(1 : ℂ)]) (by simp) (by simp) (by intro w hw; simpa using hw)

/-! ## `sfs/mono/drivingfunction.py` : WFS plane wave and source selection -/

/-- `sfs.mono.drivingfunction._wfs_plane` (aliased as `wfs_2d_plane` and
`wfs_3d_plane`): `2j·k·(n·n0)·e^(−j·k·(n·x0))` per secondary source. -/
def _wfs_plane (omega : ℝ) (x0 n0 : List Vec3) (n : Vec3) (c : ℝ) : List ℂ :=
  let k := wavenumber omega c
  (x0.zip n0).map (fun pn =>
    2 * Complex.I * (k : ℂ) * ((dot n pn.2 : ℝ) : ℂ) *
      Complex.exp (-Complex.I * (k : ℂ) * ((dot n pn.1 : ℝ) : ℂ)))

def wfs_2d_plane := _wfs_plane

def wfs_3d_plane := _wfs_plane

/-- `sfs.mono.drivingfunction.source_selection_plane`: mask with entry
`n·n0_i ≥ τ`.  The constant `defs.selection_tolerance` lives in
`sfs/defs.py`, which is not among the sources at hand; following the spec
("a small non-negative selection tolerance constant") it is the explicit
parameter `tau`. -/
def source_selection_plane (tau : ℝ) (n0 : List Vec3) (n : Vec3) : List Bool :=
  n0.map (fun v => decide (dot n v ≥ tau))

/-- `sfs.mono.drivingfunction.source_selection_point`: mask with entry
`(x0_i − xs)·n0_i ≥ τ` (`tau` as in `source_selection_plane`). -/
def source_selection_point (tau : ℝ) (n0 x0 : List Vec3) (xs : Vec3) : List Bool :=
  (x0.zip n0).map (fun pn => decide (dot (pn.1 - xs) pn.2 ≥ tau))

/-- `sfs.mono.drivingfunction.source_selection_all`: `np.ones(N) >= 0`. -/
def source_selection_all (N : ℕ) : List Bool :=
  (List.range N).map (fun _ => decide ((1 : ℝ) ≥ 0))

theorem getD_map_of_lt {α β : Type} (f : α → β) (l : List α) (i : ℕ)
    (hi : i < l.length) (da : α) (db : β) :
    (l.map f).getD i db = f (l.getD i da) := by
  rw [List.getD_eq_getElem _ _ (by simpa using hi), List.getD_eq_getElem _ _ hi]
  simp

/-- C7: source selection is purely geometric and deterministic: entry `i`
of the plane mask is true iff `n·n0_i ≥ τ`, entry `i` of the point mask is
true iff `(x0_i − xs)·n0_i ≥ τ`.  Neither function takes a frequency
argument (ω-independence is structural), and two calls with identical
inputs are the same value. -/
theorem source_selection_geometric (tau : ℝ) (n0 x0 : List Vec3) (n xs : Vec3)
    (i : ℕ) (hi : i < n0.length) (hx : x0.length = n0.length) :
    ((source_selection_plane tau n0 n).getD i false = true ↔
      dot n (n0.getD i ⟨0, 0, 0⟩) ≥ tau) ∧
    ((source_selection_point tau n0 x0 xs).getD i false = true ↔
      dot (x0.getD i ⟨0, 0, 0⟩ - xs) (n0.getD i ⟨0, 0, 0⟩) ≥ tau) ∧
    source_selection_plane tau n0 n = source_selection_plane tau n0 n ∧
    source_selection_point tau n0 x0 xs = source_selection_point tau n0 x0 xs := by
  have hzl : (x0.zip n0).length = n0.length := by
    rw [List.length_zip, hx, Nat.min_self]
  refine ⟨?_, ?_, rfl, rfl⟩
  · rw [source_selection_plane, getD_map_of_lt _ _ _ hi ⟨0, 0, 0⟩ false]
    exact decide_eq_true_iff
  · rw [source_selection_point,
      getD_map_of_lt _ _ _ (by rw [hzl]; exact hi) (⟨0, 0, 0⟩, ⟨0, 0, 0⟩) false]
    have hget : (x0.zip n0).getD i (⟨0, 0, 0⟩, ⟨0, 0, 0⟩) =
        (x0.getD i ⟨0, 0, 0⟩, n0.getD i ⟨0, 0, 0⟩) := by
      rw [List.getD_eq_getElem _ _ (by rw [hzl]; exact hi),
        List.getD_eq_getElem _ _ (by rw [hx]; exact hi),
        List.getD_eq_getElem _ _ hi]
      exact List.getElem_zip
    rw [hget]
    exact decide_eq_true_iff

theorem source_selection_geometric_witness :
    (((source_selection_plane 0 ([⟨0, 1, 0⟩] : List Vec3) ⟨0, 1, 0⟩).getD 0 false = true) ↔
      dot (⟨0, 1, 0⟩ : Vec3) (([⟨0, 1, 0⟩] : List Vec3).getD 0 ⟨0, 0, 0⟩) ≥ 0) ∧
    (((source_selection_point 0 ([⟨0, 1, 0⟩] : List Vec3) ([⟨0, 2, 0⟩] : List Vec3)
        ⟨0, 0, 0⟩).getD 0 false = true) ↔
      dot (([⟨0, 2, 0⟩] : List Vec3).getD 0 ⟨0, 0, 0⟩ - ⟨0, 0, 0⟩)
        (([⟨0, 1, 0⟩] : List Vec3).getD 0 ⟨0, 0, 0⟩) ≥ 0) ∧
    source_selection_plane 0 ([⟨0, 1, 0⟩] : List Vec3) ⟨0, 1, 0⟩ =
      source_selection_plane 0 ([⟨0, 1, 0⟩] : List Vec3) ⟨0, 1, 0⟩ ∧
    source_selection_point 0 ([⟨0, 1, 0⟩] : List Vec3) ([⟨0, 2, 0⟩] : List Vec3) ⟨0, 0, 0⟩ =
      source_selection_point 0 ([⟨0, 1, 0⟩] : List Vec3) ([⟨0, 2, 0⟩] : List Vec3) ⟨0, 0, 0⟩ :=
  source_selection_geometric 0 [⟨0, 1, 0⟩] [⟨0, 2, 0⟩] ⟨0, 1, 0⟩ ⟨0, 0, 0⟩ 0
    (by simp) (by simp)

/-- C8 counterexample: for ω = c = 1, one secondary source at the origin
with normal `(0,−1,0)` and propagation direction `n = (0,1,0)`, the
driving weight is `−2i` with magnitude `2`, while `2k·(n·n0) = −2`: the
magnitude does not equal `2k·(n·n0)` when the dot product is negative. -/
theorem wfs_3d_plane_magnitude_counterexample :
    Complex.abs ((wfs_3d_plane 1 ([⟨0, 0, 0⟩] : List Vec3)
        ([⟨0, -1, 0⟩] : List Vec3) ⟨0, 1, 0⟩ 1).headI) ≠
      2 * wavenumber 1 1 * dot ⟨0, 1, 0⟩ ⟨0, -1, 0⟩ := by
  have h1 : dot (⟨0, 1, 0⟩ : Vec3) (⟨0, -1, 0⟩ : Vec3) = -1 := by
    simp [dot]
  have h0 : dot (⟨0, 1, 0⟩ : Vec3) (⟨0, 0, 0⟩ : Vec3) = 0 := by
    simp [dot]
  have hw : (wfs_3d_plane 1 ([⟨0, 0, 0⟩] : List Vec3)
      ([⟨0, -1, 0⟩] : List Vec3) ⟨0, 1, 0⟩ 1).headI = -(2 * Complex.I) := by
    show (2 * Complex.I * ((wavenumber 1 1 : ℝ) : ℂ) *
        ((dot ⟨0, 1, 0⟩ ⟨0, -1, 0⟩ : ℝ) : ℂ) *
        Complex.exp (-Complex.I * ((wavenumber 1 1 : ℝ) : ℂ) *
          ((dot ⟨0, 1, 0⟩ ⟨0, 0, 0⟩ : ℝ) : ℂ))) = -(2 * Complex.I)
    rw [h1, h0, wavenumber]
    push_cast
    rw [mul_zero, Complex.exp_zero]
    ring
  rw [hw, h1, wavenumber]
  rw [map_neg_eq_map, map_mul Complex.abs, Complex.abs_two, Complex.abs_I]
  norm_num

/-- C8 amended: the magnitude of the `wfs_3d_plane` driving weight at
source `i` equals `2·|k|·|n·n0_i|` (the absolute values are forced by a
negative `n·n0`); it is independent of the position `x0_i`, which enters
only through the unit-magnitude phase factor `e^(−jk·n·x0_i)`. -/
theorem wfs_3d_plane_magnitude (omega c : ℝ) (x0 n0 : List Vec3) (n : Vec3)
    (i : ℕ) (hi : i < x0.length) (hi' : i < n0.length) :
    Complex.abs ((wfs_3d_plane omega x0 n0 n c).getD i 0) =
      2 * |wavenumber omega c| * |dot n (n0.getD i ⟨0, 0, 0⟩)| := by
  have hzl : i < (x0.zip n0).length := by
    rw [List.length_zip]
    exact lt_min hi hi'
  rw [wfs_3d_plane, _wfs_plane]
  rw [getD_map_of_lt _ _ _ hzl (⟨0, 0, 0⟩, ⟨0, 0, 0⟩) 0]
  have hget : (x0.zip n0).getD i (⟨0, 0, 0⟩, ⟨0, 0, 0⟩) =
      (x0.getD i ⟨0, 0, 0⟩, n0.getD i ⟨0, 0, 0⟩) := by
    rw [List.getD_eq_getElem _ _ hzl, List.getD_eq_getElem _ _ hi,
      List.getD_eq_getElem _ _ hi']
    exact List.getElem_zip
  rw [hget]
  simp only [Prod.fst, Prod.snd, map_mul, Complex.abs_two, Complex.abs_I,
    Complex.abs_ofReal, Complex.abs_exp]
  have hre : (-Complex.I * ((wavenumber omega c : ℝ) : ℂ) *
      ((dot n (x0.getD i ⟨0, 0, 0⟩) : ℝ) : ℂ)).re = 0 := by
    simp [Complex.mul_re, Complex.mul_im]
  rw [hre, Real.exp_zero]
  ring

theorem wfs_3d_plane_magnitude_witness :
    Complex.abs ((wfs_3d_plane 1 ([⟨0, 0, 0⟩] : List Vec3)
        ([⟨0, -1, 0⟩] : List Vec3) ⟨0, 1, 0⟩ 1).getD 0 0) =
      2 * |wavenumber 1 1| * |dot ⟨0, 1, 0⟩ (([⟨0, -1, 0⟩] : List Vec3).getD 0 ⟨0, 0, 0⟩)| :=
  wfs_3d_plane_magnitude 1 1 [⟨0, 0, 0⟩] [⟨0, -1, 0⟩] ⟨0, 1, 0⟩ 0
    (by simp) (by simp)

/-! ## `sfs/mono/drivingfunction.py` : 2.5-D WFS -/

/-- `np.sqrt` on a complex argument: the principal square root,
`z ^ (1/2)` via the complex power. -/
def csqrt (z : ℂ) : ℂ := z ^ ((1 : ℂ) / 2)

theorem csqrt_zero : csqrt 0 = 0 := by
  rw [csqrt]
  exact Complex.zero_cpow (by norm_num)

theorem csqrt_ne_zero {z : ℂ} (hz : z ≠ 0) : csqrt z ≠ 0 := by
  rw [csqrt]
  intro h
  exact hz ((Complex.cpow_eq_zero_iff z _).1 h).1

/-- `np.linalg.norm` applied to a whole `(N,3)` array *without* an `axis`
argument: the Frobenius norm, reducing over all entries of all rows. -/
def frobNorm (rows : List Vec3) : ℝ := Real.sqrt ((rows.map normSq).sum)

/-- `sfs.mono.drivingfunction.wfs_25d_point`.  The code computes
`np.linalg.norm(xref - x0)` where `x0` is the full `(N,3)` array and no
`axis=1` is given: a single scalar (Frobenius norm of the whole
difference matrix) shared by every source, not the per-source distance. -/
def wfs_25d_point (omega : ℝ) (x0 n0 : List Vec3) (xs xref : Vec3) (c : ℝ) : List ℂ :=
  let k := wavenumber omega c
  let amp : ℂ := csqrt (Complex.I * (k : ℂ) *
    ((frobNorm (x0.map (fun p => xref - p)) : ℝ) : ℂ) / ((2 * Real.pi : ℝ) : ℂ))
  (x0.zip n0).map (fun pn =>
    let ds := pn.1 - xs
    let r := vnorm ds
    amp * ((dot ds pn.2 : ℝ) : ℂ) / ((r ^ ((3 : ℝ) / 2) : ℝ) : ℂ) *
      Complex.exp (-Complex.I * (k : ℂ) * (r : ℂ)))

/-- `sfs.mono.drivingfunction.wfs_25d_plane`; same remark about
`np.linalg.norm(xref - x0)` as for `wfs_25d_point`. -/
def wfs_25d_plane (omega : ℝ) (x0 n0 : List Vec3) (n xref : Vec3) (c : ℝ) : List ℂ :=
  let k := wavenumber omega c
  let amp : ℂ := csqrt (((8 * Real.pi : ℝ) : ℂ) * Complex.I * (k : ℂ) *
    ((frobNorm (x0.map (fun p => xref - p)) : ℝ) : ℂ))
  (x0.zip n0).map (fun pn =>
    amp * ((dot n pn.2 : ℝ) : ℂ) *
      Complex.exp (-Complex.I * (k : ℂ) * ((dot n pn.1 : ℝ) : ℂ)))

/-- The driving function the claim (and the docstring equation
`Eq.(#emr)`) states for `wfs_25d_point`: each source `i` uses its own
distance `‖xref − x0_i‖` under the square root.  Declared for the
refinement comparison with the code above. -/
def wfs_25d_point_claim (omega : ℝ) (x0 n0 : List Vec3) (xs xref : Vec3) (c : ℝ) : List ℂ :=
  let k := wavenumber omega c
  (x0.zip n0).map (fun pn =>
    let ds := pn.1 - xs
    let r := vnorm ds
    csqrt (Complex.I * (k : ℂ) * ((vnorm (xref - pn.1) : ℝ) : ℂ) /
        ((2 * Real.pi : ℝ) : ℂ)) *
      ((dot ds pn.2 : ℝ) : ℂ) / ((r ^ ((3 : ℝ) / 2) : ℝ) : ℂ) *
      Complex.exp (-Complex.I * (k : ℂ) * (r : ℂ)))

/-- The claim formula for `wfs_25d_plane`: per-source `‖xref − x0_i‖`. -/
def wfs_25d_plane_claim (omega : ℝ) (x0 n0 : List Vec3) (n xref : Vec3) (c : ℝ) : List ℂ :=
  let k := wavenumber omega c
  (x0.zip n0).map (fun pn =>
    csqrt (((8 * Real.pi : ℝ) : ℂ) * Complex.I * (k : ℂ) *
        ((vnorm (xref - pn.1) : ℝ) : ℂ)) *
      ((dot n pn.2 : ℝ) : ℂ) *
      Complex.exp (-Complex.I * (k : ℂ) * ((dot n pn.1 : ℝ) : ℂ)))

/-- C1 (code bug): at ω = c = 1 with sources x0 = [(0,0,0), (0,2,0)],
normals (0,1,0), virtual source xs = (0,−1,0) and xref = (0,0,0) (equal to
the first source position), the claim formula gives driving weight 0 for
source 0 (its own distance to xref is 0), while the code gives a nonzero
weight because `np.linalg.norm(xref - x0)` is the Frobenius norm
sqrt(0² + 2²) = 2 of the whole difference matrix; likewise for
`wfs_25d_plane` with propagation direction (0,1,0). -/
theorem wfs_25d_refdist_code_bug :
    ((wfs_25d_point 1 ([⟨0, 0, 0⟩, ⟨0, 2, 0⟩] : List Vec3)
        ([⟨0, 1, 0⟩, ⟨0, 1, 0⟩] : List Vec3) ⟨0, -1, 0⟩ ⟨0, 0, 0⟩ 1).headI ≠
      (wfs_25d_point_claim 1 ([⟨0, 0, 0⟩, ⟨0, 2, 0⟩] : List Vec3)
        ([⟨0, 1, 0⟩, ⟨0, 1, 0⟩] : List Vec3) ⟨0, -1, 0⟩ ⟨0, 0, 0⟩ 1).headI) ∧
    (wfs_25d_point_claim 1 ([⟨0, 0, 0⟩, ⟨0, 2, 0⟩] : List Vec3)
        ([⟨0, 1, 0⟩, ⟨0, 1, 0⟩] : List Vec3) ⟨0, -1, 0⟩ ⟨0, 0, 0⟩ 1).headI = 0 ∧
    ((wfs_25d_plane 1 ([⟨0, 0, 0⟩, ⟨0, 2, 0⟩] : List Vec3)
        ([⟨0, 1, 0⟩, ⟨0, 1, 0⟩] : List Vec3) ⟨0, 1, 0⟩ ⟨0, 0, 0⟩ 1).headI ≠
      (wfs_25d_plane_claim 1 ([⟨0, 0, 0⟩, ⟨0, 2, 0⟩] : List Vec3)
        ([⟨0, 1, 0⟩, ⟨0, 1, 0⟩] : List Vec3) ⟨0, 1, 0⟩ ⟨0, 0, 0⟩ 1).headI) ∧
    (wfs_25d_plane_claim 1 ([⟨0, 0, 0⟩, ⟨0, 2, 0⟩] : List Vec3)
        ([⟨0, 1, 0⟩, ⟨0, 1, 0⟩] : List Vec3) ⟨0, 1, 0⟩ ⟨0, 0, 0⟩ 1).headI = 0 := by
  have hk : wavenumber 1 1 = 1 := by norm_num [wavenumber]
  have hv0 : vnorm ((⟨0, 0, 0⟩ : Vec3) - ⟨0, 0, 0⟩) = 0 := by
    simp [vnorm, normSq, dot, Vec3.sub_def]
  have hds : (⟨0, 0, 0⟩ : Vec3) - ⟨0, -1, 0⟩ = ⟨0, 1, 0⟩ := by
    rw [Vec3.sub_def]
    norm_num
  have hr : vnorm (⟨0, 1, 0⟩ : Vec3) = 1 := by
    rw [vnorm]
    norm_num [normSq, dot, Real.sqrt_one]
  have hdot : dot (⟨0, 1, 0⟩ : Vec3) (⟨0, 1, 0⟩ : Vec3) = 1 := by
    norm_num [dot]
  have hfrob : frobNorm [(⟨0, 0, 0⟩ : Vec3) - ⟨0, 0, 0⟩,
      (⟨0, 0, 0⟩ : Vec3) - ⟨0, 2, 0⟩] = 2 := by
    have h4 : (([(⟨0, 0, 0⟩ : Vec3) - ⟨0, 0, 0⟩,
        (⟨0, 0, 0⟩ : Vec3) - ⟨0, 2, 0⟩]).map normSq).sum = 4 := by
      simp [normSq, dot, Vec3.sub_def]
      norm_num
    rw [frobNorm, h4, show (4 : ℝ) = 2 ^ 2 by norm_num,
      Real.sqrt_sq (by norm_num : (0 : ℝ) ≤ 2)]
  have hpi : ((2 * Real.pi : ℝ) : ℂ) ≠ 0 := by
    rw [Complex.ofReal_ne_zero]
    positivity
  have hclaimpt : (wfs_25d_point_claim 1 ([⟨0, 0, 0⟩, ⟨0, 2, 0⟩] : List Vec3)
      ([⟨0, 1, 0⟩, ⟨0, 1, 0⟩] : List Vec3) ⟨0, -1, 0⟩ ⟨0, 0, 0⟩ 1).headI = 0 := by
    simp only [wfs_25d_point_claim, List.zip_cons_cons, List.map_cons, List.headI]
    rw [hv0]
    simp [csqrt_zero]
  have hclaimpl : (wfs_25d_plane_claim 1 ([⟨0, 0, 0⟩, ⟨0, 2, 0⟩] : List Vec3)
      ([⟨0, 1, 0⟩, ⟨0, 1, 0⟩] : List Vec3) ⟨0, 1, 0⟩ ⟨0, 0, 0⟩ 1).headI = 0 := by
    simp only [wfs_25d_plane_claim, List.zip_cons_cons, List.map_cons, List.headI]
    rw [hv0]
    simp [csqrt_zero]
  have hcodept : (wfs_25d_point 1 ([⟨0, 0, 0⟩, ⟨0, 2, 0⟩] : List Vec3)
      ([⟨0, 1, 0⟩, ⟨0, 1, 0⟩] : List Vec3) ⟨0, -1, 0⟩ ⟨0, 0, 0⟩ 1).headI ≠ 0 := by
    simp only [wfs_25d_point, List.zip_cons_cons, List.map_cons, List.map_nil,
      List.headI]
    rw [hds, hr, hdot, hfrob, hk]
    rw [Real.one_rpow]
    apply mul_ne_zero
    · apply div_ne_zero
      · apply mul_ne_zero
        · apply csqrt_ne_zero
          apply div_ne_zero
          · apply mul_ne_zero (mul_ne_zero Complex.I_ne_zero (by norm_num))
            norm_num
          · exact hpi
        · norm_num
      · norm_num
    · exact Complex.exp_ne_zero _
  have hcodepl : (wfs_25d_plane 1 ([⟨0, 0, 0⟩, ⟨0, 2, 0⟩] : List Vec3)
      ([⟨0, 1, 0⟩, ⟨0, 1, 0⟩] : List Vec3) ⟨0, 1, 0⟩ ⟨0, 0, 0⟩ 1).headI ≠ 0 := by
    simp only [wfs_25d_plane, List.zip_cons_cons, List.map_cons, List.map_nil,
      List.headI]
    rw [hdot, hfrob, hk]
    apply mul_ne_zero
    · apply mul_ne_zero
      · apply csqrt_ne_zero
        apply mul_ne_zero
        · apply mul_ne_zero
          · apply mul_ne_zero _ Complex.I_ne_zero
            rw [Complex.ofReal_ne_zero]
            positivity
          · norm_num
        · norm_num
      · norm_num
    · exact Complex.exp_ne_zero _
  refine ⟨?_, hclaimpt, ?_, hclaimpl⟩
  · rw [hclaimpt]
    exact hcodept
  · rw [hclaimpl]
    exact hcodepl

/-! ## `sfs/mono/source.py` -/

/-- A numpy complex value that may be non-finite.  Dividing a nonzero
finite value by zero under IEEE-754 semantics yields infinities/NaNs
without raising; `NpC.nonfin` absorbs every such non-finite outcome. -/
inductive NpC where
  | fin : ℂ → NpC
  | nonfin : NpC

/-- Division of a finite complex value by a real scalar with IEEE-754
behaviour at zero: division by zero produces a non-finite value. -/
def npDiv (z : ℂ) (r : ℝ) : NpC :=
  if r = 0 then NpC.nonfin else NpC.fin (z / (r : ℂ))

/-- `sfs.mono.source.point` evaluated at one observation point `x` of the
grid: `(1/4π)·e^(−jkr)/r` with `r = ‖x − x0‖`. -/
def point (omega : ℝ) (x0 : Vec3) (x : Vec3) (c : ℝ) : NpC :=
  let k := wavenumber omega c
  let r := vnorm (x - x0)
  npDiv (((1 / (4 * Real.pi) : ℝ) : ℂ) *
    Complex.exp (-Complex.I * (k : ℂ) * (r : ℂ))) r

/-- C9: evaluating the point-source Green's function at an observation
point coincident with the source does not raise: the division by zero
propagates a non-finite value (`NpC.nonfin`, distinct from every finite
complex pressure), while at every other point the result is the finite
`(1/4π)·e^(−jkr)/r`. -/
theorem point_source_singularity (omega c : ℝ) (x0 x : Vec3) :
    (vnorm (x - x0) = 0 → point omega x0 x c = NpC.nonfin) ∧
    (vnorm (x - x0) ≠ 0 →
      point omega x0 x c = NpC.fin (((1 / (4 * Real.pi) : ℝ) : ℂ) *
        Complex.exp (-Complex.I * ((wavenumber omega c : ℝ) : ℂ) *
          ((vnorm (x - x0) : ℝ) : ℂ)) / ((vnorm (x - x0) : ℝ) : ℂ))) ∧
    (∀ z : ℂ, NpC.nonfin ≠ NpC.fin z) := by
  refine ⟨?_, ?_, fun z h => NpC.noConfusion h⟩
  · intro h
    simp [point, npDiv, h]
  · intro h
    simp [point, npDiv, h]

theorem point_source_singularity_witness :
    point 1 (⟨0, 0, 0⟩ : Vec3) (⟨0, 0, 0⟩ : Vec3) 1 = NpC.nonfin ∧
    point 1 (⟨0, 0, 0⟩ : Vec3) (⟨1, 0, 0⟩ : Vec3) 1 =
      NpC.fin (((1 / (4 * Real.pi) : ℝ) : ℂ) *
        Complex.exp (-Complex.I * ((wavenumber 1 1 : ℝ) : ℂ) *
          ((vnorm ((⟨1, 0, 0⟩ : Vec3) - ⟨0, 0, 0⟩) : ℝ) : ℂ)) /
        ((vnorm ((⟨1, 0, 0⟩ : Vec3) - ⟨0, 0, 0⟩) : ℝ) : ℂ)) :=
  ⟨(point_source_singularity 1 1 ⟨0, 0, 0⟩ ⟨0, 0, 0⟩).1
      (by simp [vnorm, normSq, dot, Vec3.sub_def]),
   (point_source_singularity 1 1 ⟨0, 0, 0⟩ ⟨1, 0, 0⟩).2.1
      (by norm_num [vnorm, normSq, dot, Vec3.sub_def, Real.sqrt_one])⟩

/-! ## `sfs/mono/drivingfunction.py` : NFC-HOA -/

/-- `sfs.mono.drivingfunction._hoa_order_2d`. -/
def _hoa_order_2d (N : ℕ) : ℕ := if N % 2 = 0 then N / 2 else (N - 1) / 2

/-- `np.arange(a, b)` over the integers. -/
def arangeZ (a b : ℤ) : List ℤ :=
  (List.range (b - a).toNat).map (fun (i : ℕ) => a + (i : ℤ))

theorem arangeZ_mem (a b m : ℤ) : m ∈ arangeZ a b ↔ a ≤ m ∧ m < b := by
  simp only [arangeZ, List.mem_map, List.mem_range]
  constructor
  · rintro ⟨i, hi, rfl⟩
    omega
  · rintro ⟨h1, h2⟩
    exact ⟨(m - a).toNat, by omega, by omega⟩

theorem list_range_map_sum (n : ℕ) (g : ℕ → ℂ) :
    ((List.range n).map g).sum = ∑ i in Finset.range n, g i := by
  induction n with
  | zero => simp
  | succ nn ih =>
      rw [List.range_succ, List.map_append, List.sum_append, ih,
        Finset.sum_range_succ]
      simp

theorem arangeZ_map_sum (a b : ℤ) (f : ℤ → ℂ) :
    ((arangeZ a b).map f).sum = ∑ m in Finset.Ico a b, f m := by
  rw [arangeZ, List.map_map, list_range_map_sum]
  by_cases hab : a ≤ b
  · have hico : Finset.Ico a b = (Finset.range (b - a).toNat).map
        ⟨fun (i : ℕ) => a + (i : ℤ), by
          intro i j hij
          simp only [add_right_inj, Nat.cast_inj] at hij
          exact hij⟩ := by
      ext m
      simp only [Finset.mem_Ico, Finset.mem_map, Finset.mem_range,
        Function.Embedding.coeFn_mk]
      constructor
      · rintro ⟨h1, h2⟩
        exact ⟨(m - a).toNat, by omega, by omega⟩
      · rintro ⟨i, hi, rfl⟩
        omega
    rw [hico, Finset.sum_map]
    rfl
  · have h0 : (b - a).toNat = 0 := by omega
    have he : Finset.Ico a b = ∅ := Finset.Ico_eq_empty (by omega)
    rw [h0, he]
    simp

/-- `sfs.mono.drivingfunction.nfchoa_2d_plane`.  `scipy.special.hankel2`
and the azimuth part of `util.cart2sph` are external collaborators, passed
as the parameters `hankel2` and `az`. -/
def nfchoa_2d_plane (hankel2 : ℤ → ℝ → ℂ) (az : Vec3 → ℝ) (omega : ℝ)
    (x0 : List Vec3) (r0 : ℝ) (n : Vec3) (c : ℝ) : List ℂ :=
  let k := wavenumber omega c
  let alpha := az n
  let M := _hoa_order_2d x0.length
  x0.map (fun p =>
    -(2 * Complex.I) / ((Real.pi * r0 : ℝ) : ℂ) *
      ((arangeZ (-(M : ℤ)) M).map (fun (m : ℤ) =>
        Complex.I ^ (-m) / hankel2 m (k * r0) *
          Complex.exp (Complex.I * (m : ℂ) * ((az p - alpha : ℝ) : ℂ)))).sum)

/-- `sfs.mono.drivingfunction.nfchoa_25d_point`.  `sphHn2 M z j` stands
for the order-`j` entry of the value row of `_sph_hn2(M, z)` (spherical
Hankel of the second kind, an external `scipy` collaborator); `az`/`rad`
are the azimuth and radius parts of `util.cart2sph`. -/
def nfchoa_25d_point (sphHn2 : ℕ → ℝ → ℕ → ℂ) (az rad : Vec3 → ℝ) (omega : ℝ)
    (x0 : List Vec3) (r0 : ℝ) (xs : Vec3) (c : ℝ) : List ℂ :=
  let k := wavenumber omega c
  let alpha := az xs
  let r := rad xs
  let M := _hoa_order_2d x0.length
  let a : ℕ → ℂ := fun j => sphHn2 M (k * r) j / sphHn2 M (k * r0) j
  x0.map (fun p =>
    (1 : ℂ) / ((2 * Real.pi * r0 : ℝ) : ℂ) *
      ((arangeZ (-(M : ℤ)) M).map (fun (m : ℤ) =>
        a m.natAbs * Complex.exp (Complex.I * (m : ℂ) * ((az p - alpha : ℝ) : ℂ)))).sum)

/-- `sfs.mono.drivingfunction.nfchoa_25d_plane` (parameters as in
`nfchoa_25d_point`). -/
def nfchoa_25d_plane (sphHn2 : ℕ → ℝ → ℕ → ℂ) (az : Vec3 → ℝ) (omega : ℝ)
    (x0 : List Vec3) (r0 : ℝ) (n : Vec3) (c : ℝ) : List ℂ :=
  let k := wavenumber omega c
  let alpha := az n
  let M := _hoa_order_2d x0.length
  let a : ℕ → ℂ := fun j => 1 / sphHn2 M (k * r0) j
  x0.map (fun p =>
    (-2 : ℂ) / ((r0 : ℝ) : ℂ) *
      ((arangeZ (-(M : ℤ)) M).map (fun (m : ℤ) =>
        Complex.I ^ (-(m.natAbs : ℤ)) * a m.natAbs *
          Complex.exp (Complex.I * (m : ℂ) * ((az p - alpha : ℝ) : ℂ)))).sum)

/-- C2: for each NFC-HOA driving function applied to `N = len(x0)`
secondary sources, the maximum harmonic order is `M = N/2` for even `N`
and `(N−1)/2` for odd `N`, and the harmonic summation runs over exactly
the integer orders `−M, …, M−1` (the asymmetric bound: `m = M` excluded,
`m = −M` included): each of the three functions equals the map whose
inner sum ranges over the integer interval `[−M, M)`. -/
theorem nfchoa_order_and_summation_range (hankel2 : ℤ → ℝ → ℂ)
    (sphHn2 : ℕ → ℝ → ℕ → ℂ) (az rad : Vec3 → ℝ) (omega : ℝ) (x0 : List Vec3)
    (r0 : ℝ) (n xs : Vec3) (c : ℝ) :
    (x0.length % 2 = 0 → _hoa_order_2d x0.length = x0.length / 2) ∧
    (x0.length % 2 ≠ 0 → _hoa_order_2d x0.length = (x0.length - 1) / 2) ∧
    (∀ m : ℤ,
      m ∈ arangeZ (-(_hoa_order_2d x0.length : ℤ)) (_hoa_order_2d x0.length) ↔
      (-(_hoa_order_2d x0.length : ℤ) ≤ m ∧ m < (_hoa_order_2d x0.length : ℤ))) ∧
    nfchoa_2d_plane hankel2 az omega x0 r0 n c =
      x0.map (fun p =>
        -(2 * Complex.I) / ((Real.pi * r0 : ℝ) : ℂ) *
          ∑ m in Finset.Ico (-(_hoa_order_2d x0.length : ℤ))
              (_hoa_order_2d x0.length : ℤ),
            Complex.I ^ (-m) / hankel2 m (wavenumber omega c * r0) *
              Complex.exp (Complex.I * (m : ℂ) * ((az p - az n : ℝ) : ℂ))) ∧
    nfchoa_25d_point sphHn2 az rad omega x0 r0 xs c =
      x0.map (fun p =>
        (1 : ℂ) / ((2 * Real.pi * r0 : ℝ) : ℂ) *
          ∑ m in Finset.Ico (-(_hoa_order_2d x0.length : ℤ))
              (_hoa_order_2d x0.length : ℤ),
            sphHn2 (_hoa_order_2d x0.length) (wavenumber omega c * rad xs) m.natAbs /
              sphHn2 (_hoa_order_2d x0.length) (wavenumber omega c * r0) m.natAbs *
              Complex.exp (Complex.I * (m : ℂ) * ((az p - az xs : ℝ) : ℂ))) ∧
    nfchoa_25d_plane sphHn2 az omega x0 r0 n c =
      x0.map (fun p =>
        (-2 : ℂ) / ((r0 : ℝ) : ℂ) *
          ∑ m in Finset.Ico (-(_hoa_order_2d x0.length : ℤ))
              (_hoa_order_2d x0.length : ℤ),
            Complex.I ^ (-(m.natAbs : ℤ)) *
              (1 / sphHn2 (_hoa_order_2d x0.length) (wavenumber omega c * r0) m.natAbs) *
              Complex.exp (Complex.I * (m : ℂ) * ((az p - az n : ℝ) : ℂ))) := by
  refine ⟨fun h => by rw [_hoa_order_2d, if_pos h],
    fun h => by rw [_hoa_order_2d, if_neg h],
    fun m => arangeZ_mem _ _ m, ?_, ?_, ?_⟩
  · simp only [nfchoa_2d_plane]
    congr 1
  · simp only [nfchoa_25d_point]
    congr 1
  · simp only [nfchoa_25d_plane]
    congr 1

theorem nfchoa_order_and_summation_range_witness :
    _hoa_order_2d 4 = 4 / 2 ∧
    _hoa_order_2d 5 = (5 - 1) / 2 ∧
    (((-2 : ℤ) ∈ arangeZ (-(2 : ℤ)) 2 ↔ (-(2 : ℤ) ≤ -2 ∧ (-2 : ℤ) < 2)) ∧
     ((2 : ℤ) ∈ arangeZ (-(2 : ℤ)) 2 ↔ (-(2 : ℤ) ≤ 2 ∧ (2 : ℤ) < 2))) := by
  have h4 := nfchoa_order_and_summation_range (fun _ _ => 1) (fun _ _ _ => 1)
    (fun _ => 0) (fun _ => 0) 1
    ([⟨0, 0, 0⟩, ⟨0, 0, 0⟩, ⟨0, 0, 0⟩, ⟨0, 0, 0⟩] : List Vec3) 1 ⟨0, 0, 0⟩ ⟨0, 0, 0⟩ 1
  have h5 := nfchoa_order_and_summation_range (fun _ _ => 1) (fun _ _ _ => 1)
    (fun _ => 0) (fun _ => 0) 1
    ([⟨0, 0, 0⟩, ⟨0, 0, 0⟩, ⟨0, 0, 0⟩, ⟨0, 0, 0⟩, ⟨0, 0, 0⟩] : List Vec3) 1
    ⟨0, 0, 0⟩ ⟨0, 0, 0⟩ 1
  exact ⟨h4.1 rfl, h5.2.1 (by norm_num), h4.2.2.1 (-2), h4.2.2.1 2⟩

/-! ## `sfs/tapering.py` -/

namespace tapering

/-- `active.astype(int)`, one entry. -/
def boolToInt (b : Bool) : ℤ := if b then 1 else 0

/-- `np.diff` on a 1-d integer array. -/
def npDiff (l : List ℤ) : List ℤ := (l.zip l.tail).map (fun p => p.2 - p.1)

/-- Fold of `np.argmax` over the remaining entries, carrying the running
position `i`, the best index `bi` and the best value `bv`; a later entry
replaces the best only when strictly greater, so the first maximum wins. -/
def argmaxAux : List ℤ → ℕ → ℕ → ℤ → ℕ
  | [], _, bi, _ => bi
  | v :: t, i, bi, bv =>
      if bv < v then argmaxAux t (i + 1) i v else argmaxAux t (i + 1) bi bv

/-- `np.argmax`: index of the first maximal entry. -/
def npArgmax : List ℤ → ℕ
  | [] => 0
  | v :: t => argmaxAux t 1 0 v

/-- `np.roll(l, -k)` for `0 ≤ k ≤ len(l)`: rotate left by `k`. -/
def npRoll (l : List ℕ) (k : ℕ) : List ℕ := l.drop k ++ l.take k

/-- `sfs.tapering._windowidx`. -/
def _windowidx (active : List Bool) : List ℕ :=
  let first_idx :=
    if (active.headI && !(active.getLastD false)) || active.all (fun b => b) then 0
    else npArgmax (npDiff (active.map boolToInt)) + 1
  (npRoll (List.range active.length) first_idx).take (active.count true)

/-- `sfs.tapering.none`: the boolean mask itself, which numpy arithmetic
reads as 0/1. -/
def none (active : List Bool) : List ℝ :=
  active.map (fun b => if b then 1 else 0)

/-- Fancy-index assignment `base[idx] = vals` (index positions are
pairwise distinct wherever this is used). -/
def assignAt : List ℝ → List ℕ → List ℝ → List ℝ
  | base, i :: is, v :: vs => assignAt (base.set i v) is vs
  | base, _, _ => base

/-- Modified Bessel function of the first kind and order zero (`np.i0`):
`I0(t) = Σ (t²/4)^k / (k!)²`. -/
def besselI0 (t : ℝ) : ℝ :=
  tsum (fun k : ℕ => ((t / 2) ^ 2) ^ k / ((k.factorial : ℝ)) ^ 2)

/-- `np.kaiser(M, beta)` (numpy special-cases `M == 1`). -/
def npKaiser (M : ℕ) (beta : ℝ) : List ℝ :=
  if M = 1 then [1]
  else (List.range M).map (fun (i : ℕ) =>
    let alpha : ℝ := ((M : ℝ) - 1) / 2
    besselI0 (beta * Real.sqrt (1 - (((i : ℝ) - alpha) / alpha) ^ 2)) / besselI0 beta)

/-- `sfs.tapering.kaiser`. -/
def kaiser (active : List Bool) (beta : ℝ) : List ℝ :=
  let idx := _windowidx active
  assignAt (List.replicate active.length 0) idx (npKaiser idx.length beta)

/-- `np.linspace 0 1 m`. -/
def linspace01 (m : ℕ) : List ℝ :=
  (List.range m).map (fun (i : ℕ) => (i : ℝ) / ((m : ℝ) - 1))

/-- Value of the Tukey ramp of `sfs.tapering.tukey` at abscissa `x`: the
`first_part` / `third_part` masked assignments over an all-ones array
(the `third_part` assignment runs second, hence is checked first). -/
def tukeyShape (alpha x : ℝ) : ℝ :=
  if x ≥ 1 - alpha / 2 then
    1 / 2 * (1 + Real.cos (2 * Real.pi / alpha * (x - 1 + alpha / 2)))
  else if x < alpha / 2 then
    1 / 2 * (1 + Real.cos (2 * Real.pi / alpha * (x - alpha / 2)))
  else 1

/-- `sfs.tapering.tukey`: clip α into [0,1]; α = 0 falls back to `none`;
otherwise build the ramp over `len(idx) + 2` linspace points and drop the
two endpoint samples (`tukey[1:-1]`). -/
def tukey (active : List Bool) (alpha : ℝ) : List ℝ :=
  let idx := _windowidx active
  let a := min (max alpha 0) 1
  if a = 0 then none active
  else
    let tvals := (linspace01 (idx.length + 2)).map (tukeyShape a)
    assignAt (List.replicate active.length 0) idx ((tvals.drop 1).take idx.length)

/-- The boolean mask of length `n` whose true entries are exactly the
length-`len` connected run starting at index `s`, wrapping around the end
of the array when `s + len > n` (the array read as a ring). -/
def runMask (n s len : ℕ) : List Bool :=
  (List.range n).map (fun i => decide ((i + n - s) % n < len))

theorem mod_two_cases (a n : ℕ) (h : a < 2 * n) :
    a % n = if a < n then a else a - n := by
  by_cases h' : a < n
  · rw [if_pos h', Nat.mod_eq_of_lt h']
  · rw [if_neg h', Nat.mod_eq_sub_mod (Nat.le_of_not_lt h'),
      Nat.mod_eq_of_lt (by omega)]

theorem mod_inv1 (n s p : ℕ) (_hn : 0 < n) (hs : s < n) (hp : p < n) :
    (s + (p + n - s) % n) % n = p := by
  rw [mod_two_cases (p + n - s) n (by omega)]
  by_cases h : p < s
  · rw [if_pos (by omega), show s + (p + n - s) = p + n by omega,
      mod_two_cases (p + n) n (by omega), if_neg (by omega)]
    omega
  · rw [if_neg (by omega), show s + (p + n - s - n) = p by omega,
      Nat.mod_eq_of_lt hp]

theorem mod_inv2 (n s j : ℕ) (_hn : 0 < n) (hs : s < n) (hj : j < n) :
    ((s + j) % n + n - s) % n = j := by
  rw [mod_two_cases (s + j) n (by omega)]
  by_cases h : s + j < n
  · rw [if_pos h, show s + j + n - s = j + n by omega,
      mod_two_cases (j + n) n (by omega), if_neg (by omega)]
    omega
  · rw [if_neg h, show s + j - n + n - s = j by omega, Nat.mod_eq_of_lt hj]

theorem headI_eq_getD (l : List Bool) (h : l ≠ []) : l.headI = l.getD 0 false := by
  cases l with
  | nil => exact absurd rfl h
  | cons a t => rfl

theorem getLastD_eq_getD (l : List Bool) (d : Bool) : l ≠ [] →
    l.getLastD d = l.getD (l.length - 1) false := by
  induction l generalizing d with
  | nil => intro h; exact absurd rfl h
  | cons a t ih =>
      intro _
      cases t with
      | nil => rfl
      | cons b u =>
          rw [List.getLastD_cons, ih a (by simp)]
          rfl

theorem runMask_length (n s len : ℕ) : (runMask n s len).length = n := by
  simp [runMask]

theorem runMask_getD (n s len i : ℕ) (hi : i < n) :
    (runMask n s len).getD i false = decide ((i + n - s) % n < len) := by
  rw [runMask, getD_map_of_lt _ _ _ (by simpa using hi) 0 false]
  have hr : (List.range n).getD i 0 = i := by
    rw [List.getD_eq_getElem _ _ (by simpa using hi)]
    simp
  rw [hr]

theorem runMask_getD_iff (n s len i : ℕ) (hi : i < n) :
    ((runMask n s len).getD i false = true) ↔ (i + n - s) % n < len := by
  rw [runMask_getD n s len i hi]
  exact decide_eq_true_iff

theorem count_runMask (n s len : ℕ) (hn : 0 < n) (hs : s < n) (hlen : len ≤ n) :
    (runMask n s len).count true = len := by
  have hbridge : (runMask n s len).count true =
      ((Finset.range n).filter (fun i => (i + n - s) % n < len)).card := by
    rw [runMask, List.count_eq_countP, List.countP_map]
    have hfun : ((fun x => x == true) ∘ fun i : ℕ => decide ((i + n - s) % n < len))
        = fun i : ℕ => decide ((i + n - s) % n < len) := by
      funext i
      simp
    rw [hfun, List.countP_eq_length_filter, Finset.card_def, Finset.filter_val,
      Finset.range_val, ← Multiset.coe_range, Multiset.filter_coe,
      Multiset.coe_card]
  rw [hbridge]
  have himg : (Finset.range n).filter (fun i => (i + n - s) % n < len) =
      (Finset.range len).image (fun j => (s + j) % n) := by
    ext p
    simp only [Finset.mem_filter, Finset.mem_range, Finset.mem_image]
    constructor
    · rintro ⟨hp, hfit⟩
      exact ⟨(p + n - s) % n, hfit, mod_inv1 n s p hn hs hp⟩
    · rintro ⟨j, hj, rfl⟩
      refine ⟨Nat.mod_lt _ hn, ?_⟩
      rw [mod_inv2 n s j hn hs (by omega)]
      exact hj
  rw [himg, Finset.card_image_of_injOn, Finset.card_range]
  intro a ha b hb hab
  simp only [Finset.coe_range, Set.mem_Iio] at ha hb
  have hab2 : (s + a) % n = (s + b) % n := hab
  have := mod_inv2 n s a hn hs (by omega)
  rw [hab2, mod_inv2 n s b hn hs (by omega)] at this
  omega

theorem argmaxAux_keep (t : List ℤ) : ∀ (i bi : ℕ) (bv : ℤ),
    (∀ v ∈ t, v ≤ bv) → argmaxAux t i bi bv = bi := by
  induction t with
  | nil => intros; rfl
  | cons v tt ih =>
      intro i bi bv h
      simp only [argmaxAux]
      rw [if_neg (not_lt.2 (h v (List.mem_cons_self v tt)))]
      exact ih (i + 1) bi bv (fun w hw => h w (List.mem_cons_of_mem v hw))

theorem argmaxAux_find (t : List ℤ) : ∀ (j : ℕ), j < t.length → ∀ (v : ℤ),
    t.getD j 0 = v →
    (∀ i2, i2 < j → t.getD i2 0 < v) →
    (∀ x ∈ t, x ≤ v) →
    ∀ (i bi : ℕ) (bv : ℤ), bv < v → argmaxAux t i bi bv = i + j := by
  induction t with
  | nil =>
      intro j hj
      simp at hj
  | cons a tt ih =>
      intro j hj v hget hbefore hall i bi bv hbv
      cases j with
      | zero =>
          have ha : a = v := by simpa using hget
          simp only [argmaxAux]
          rw [if_pos (ha ▸ hbv),
            argmaxAux_keep tt (i + 1) i a
              (fun w hw => ha ▸ hall w (List.mem_cons_of_mem a hw))]
          omega
      | succ jj =>
          have ha : a < v := by simpa using hbefore 0 (Nat.succ_pos jj)
          by_cases hb : bv < a
          · simp only [argmaxAux]
            rw [if_pos hb,
              ih jj (by simpa using hj) v (by simpa using hget)
                (fun i2 hi2 => by simpa using hbefore (i2 + 1) (by omega))
                (fun x hx => hall x (List.mem_cons_of_mem a hx)) (i + 1) i a ha]
            omega
          · simp only [argmaxAux]
            rw [if_neg hb,
              ih jj (by simpa using hj) v (by simpa using hget)
                (fun i2 hi2 => by simpa using hbefore (i2 + 1) (by omega))
                (fun x hx => hall x (List.mem_cons_of_mem a hx)) (i + 1) bi bv hbv]
            omega

theorem npArgmax_spec (l : List ℤ) (j : ℕ) (hj : j < l.length) (v : ℤ)
    (hget : l.getD j 0 = v)
    (hbefore : ∀ i2, i2 < j → l.getD i2 0 < v)
    (hall : ∀ x ∈ l, x ≤ v) :
    npArgmax l = j := by
  cases l with
  | nil => simp at hj
  | cons a t =>
      cases j with
      | zero =>
          have ha : a = v := by simpa using hget
          simp only [npArgmax]
          exact argmaxAux_keep t 1 0 a
            (fun w hw => ha ▸ hall w (List.mem_cons_of_mem a hw))
      | succ jj =>
          have ha : a < v := by simpa using hbefore 0 (Nat.succ_pos jj)
          simp only [npArgmax]
          rw [argmaxAux_find t jj (by simpa using hj) v (by simpa using hget)
            (fun i2 hi2 => by simpa using hbefore (i2 + 1) (by omega))
            (fun x hx => hall x (List.mem_cons_of_mem a hx)) 1 0 a ha]
          omega

theorem npDiff_length (l : List ℤ) : (npDiff l).length = l.length - 1 := by
  rw [npDiff, List.length_map, List.length_zip, List.length_tail]
  omega

theorem npDiff_getD (l : List ℤ) (i : ℕ) (hi : i + 1 < l.length) :
    (npDiff l).getD i 0 = l.getD (i + 1) 0 - l.getD i 0 := by
  have hzl : i < (l.zip l.tail).length := by
    rw [List.length_zip, List.length_tail]
    omega
  rw [npDiff, getD_map_of_lt _ _ _ hzl (0, 0) 0]
  have hget : (l.zip l.tail).getD i (0, 0) = (l.getD i 0, l.tail.getD i 0) := by
    rw [List.getD_eq_getElem _ _ hzl, List.getD_eq_getElem _ _ (by omega),
      List.getD_eq_getElem _ _ (by rw [List.length_tail]; omega)]
    exact List.getElem_zip
  rw [hget]
  have htail : l.tail.getD i 0 = l.getD (i + 1) 0 := by
    rw [List.getD_eq_getElem _ _ (by rw [List.length_tail]; omega),
      List.getD_eq_getElem _ _ (by omega)]
    exact List.getElem_tail _ _ _
  rw [htail]

theorem npDiff_boolToInt_le_one (l : List Bool) :
    ∀ x ∈ npDiff (l.map boolToInt), x ≤ 1 := by
  intro x hx
  rw [npDiff] at hx
  obtain ⟨p, hp, rfl⟩ := List.mem_map.1 hx
  obtain ⟨p1, p2⟩ := p
  have hmem := List.of_mem_zip hp
  obtain ⟨b1, _, hb1⟩ := List.mem_map.1 hmem.1
  obtain ⟨b2, _, hb2⟩ := List.mem_map.1 (List.mem_of_mem_tail hmem.2)
  rw [← hb1, ← hb2]
  cases b1 <;> cases b2 <;> norm_num [boolToInt]

theorem npRoll_range_take_length (n s len : ℕ) (hs : s ≤ n) (hlen : len ≤ n) :
    ((npRoll (List.range n) s).take len).length = len := by
  rw [npRoll, List.length_take, List.length_append, List.length_drop,
    List.length_take, List.length_range]
  omega

theorem npRoll_range_take_getD (n s len j : ℕ) (hs : s < n) (hlen : len ≤ n)
    (hj : j < len) :
    ((npRoll (List.range n) s).take len).getD j 0 = (s + j) % n := by
  have hlen1 : j < ((npRoll (List.range n) s).take len).length := by
    rw [npRoll_range_take_length n s len (le_of_lt hs) hlen]
    exact hj
  rw [List.getD_eq_getElem _ _ hlen1, List.getElem_take]
  simp only [npRoll]
  by_cases hcase : j < n - s
  · rw [List.getElem_append_left (by simp; omega), List.getElem_drop,
      List.getElem_range, Nat.mod_eq_of_lt (by omega)]
  · rw [List.getElem_append_right (by simp; omega)]
    simp only [List.length_drop, List.length_range]
    rw [List.getElem_take, List.getElem_range,
      mod_two_cases (s + j) n (by omega), if_neg (by omega)]
    omega

theorem mem_npRoll_range_take (n s len p : ℕ) (hn : 0 < n) (hs : s < n)
    (hlen : len ≤ n) (hp : p < n) :
    p ∈ (npRoll (List.range n) s).take len ↔ (p + n - s) % n < len := by
  constructor
  · intro hmem
    obtain ⟨j, hjlen, hjp⟩ := List.getElem_of_mem hmem
    have hj : j < len := by
      rw [npRoll_range_take_length n s len (le_of_lt hs) hlen] at hjlen
      exact hjlen
    have hval := npRoll_range_take_getD n s len j hs hlen hj
    rw [List.getD_eq_getElem _ _ hjlen, hjp] at hval
    rw [hval, mod_inv2 n s j hn hs (by omega)]
    exact hj
  · intro hlt
    have hgd := npRoll_range_take_getD n s len ((p + n - s) % n) hs hlen hlt
    rw [mod_inv1 n s p hn hs hp] at hgd
    have hlen1 : (p + n - s) % n < ((npRoll (List.range n) s).take len).length := by
      rw [npRoll_range_take_length n s len (le_of_lt hs) hlen]
      exact hlt
    rw [List.getD_eq_getElem _ _ hlen1] at hgd
    rw [← hgd]
    exact List.getElem_mem _

theorem nodup_npRoll_range_take (n s len : ℕ) :
    ((npRoll (List.range n) s).take len).Nodup := by
  have hperm : List.Perm (npRoll (List.range n) s) (List.range n) := by
    simp only [npRoll]
    exact (List.perm_append_comm).trans (by rw [List.take_append_drop])
  exact (List.take_sublist _ _).nodup (hperm.symm.nodup (List.nodup_range n))

theorem mem_npRoll_range_take_lt (n s len q : ℕ)
    (hq : q ∈ (npRoll (List.range n) s).take len) : q < n := by
  have h1 : q ∈ npRoll (List.range n) s := List.take_subset _ _ hq
  rw [npRoll] at h1
  rcases List.mem_append.1 h1 with h | h
  · exact List.mem_range.1 (List.drop_subset _ _ h)
  · exact List.mem_range.1 (List.take_subset _ _ h)

theorem ints_getD (n s len i : ℕ) (hi : i < n) :
    ((runMask n s len).map boolToInt).getD i 0 =
      boolToInt (decide ((i + n - s) % n < len)) := by
  rw [getD_map_of_lt _ _ _ (by rw [runMask_length]; exact hi) false 0,
    runMask_getD n s len i hi]

/-- The connected-run discovery of `_windowidx` on a gap-free (possibly
wrapped) run mask: the window index list is the index ring rotated so the
run start `s` comes first, truncated to the run length. -/
theorem windowidx_runMask (n s len : ℕ) (hn : 0 < n) (hs : s < n)
    (hlen : len ≤ n) (hlen0 : 0 < len) (hsn : len = n → s = 0) :
    _windowidx (runMask n s len) = (npRoll (List.range n) s).take len := by
  have hmne : runMask n s len ≠ [] := by
    intro hcon
    have := runMask_length n s len
    rw [hcon] at this
    simp at this
    omega
  simp only [_windowidx]
  rw [runMask_length, count_runMask n s len hn hs hlen]
  by_cases hfull : len = n
  · have hs0 := hsn hfull
    subst hs0
    have hall : (runMask n 0 len).all (fun b => b) = true := by
      rw [List.all_eq_true]
      intro x hx
      rw [runMask] at hx
      obtain ⟨i, hi, rfl⟩ := List.mem_map.1 hx
      rw [List.mem_range] at hi
      show decide ((i + n - 0) % n < len) = true
      rw [decide_eq_true_iff, show i + n - 0 = i + n by omega,
        mod_two_cases (i + n) n (by omega), if_neg (by omega)]
      omega
    rw [hall, Bool.or_true, if_pos rfl]
  · have hltn : len < n := lt_of_le_of_ne hlen hfull
    have hhead : (runMask n s len).headI = decide ((0 + n - s) % n < len) := by
      rw [headI_eq_getD _ hmne, runMask_getD n s len 0 hn]
    have hlast : (runMask n s len).getLastD false =
        decide ((n - 1 + n - s) % n < len) := by
      rw [getLastD_eq_getD _ _ hmne, runMask_length,
        runMask_getD n s len (n - 1) (by omega)]
    by_cases hs0 : s = 0
    · subst hs0
      have h1 : (0 + n - 0) % n < len := by
        rw [show 0 + n - 0 = n by omega, Nat.mod_self]
        exact hlen0
      have h2 : ¬((n - 1 + n - 0) % n < len) := by
        rw [show n - 1 + n - 0 = n - 1 + n by omega,
          mod_two_cases (n - 1 + n) n (by omega), if_neg (by omega)]
        omega
      rw [hhead, hlast, decide_eq_true h1, decide_eq_false h2]
      simp
    · have hspos : 0 < s := Nat.pos_of_ne_zero hs0
      have hhv : (0 + n - s) % n = n - s := by
        rw [show 0 + n - s = n - s by omega, Nat.mod_eq_of_lt (by omega)]
      have hlv : (n - 1 + n - s) % n = n - 1 - s := by
        rw [mod_two_cases (n - 1 + n - s) n (by omega), if_neg (by omega)]
        omega
      have hallf : (runMask n s len).all (fun b => b) = false := by
        cases hB : (runMask n s len).all (fun b => b) with
        | false => rfl
        | true =>
            exfalso
            rw [List.all_eq_true] at hB
            have hmem : (runMask n s len).getD (s - 1) false ∈ runMask n s len := by
              rw [List.getD_eq_getElem _ _ (by rw [runMask_length]; omega)]
              exact List.getElem_mem _
            have hval := hB _ hmem
            rw [runMask_getD n s len (s - 1) (by omega)] at hval
            simp only [decide_eq_true_eq] at hval
            rw [show s - 1 + n - s = n - 1 by omega,
              Nat.mod_eq_of_lt (by omega)] at hval
            omega
      have hcondf : (((runMask n s len).headI && !((runMask n s len).getLastD false))
          || (runMask n s len).all (fun b => b)) = false := by
        rw [hallf, Bool.or_false, hhead, hlast, hhv, hlv]
        by_cases hw : n - s < len
        · rw [decide_eq_true (by omega : n - 1 - s < len)]
          simp
        · rw [decide_eq_false hw]
          simp
      rw [if_neg (by rw [hcondf]; exact Bool.false_ne_true)]
      have hdlen : (npDiff ((runMask n s len).map boolToInt)).length = n - 1 := by
        rw [npDiff_length, List.length_map, runMask_length]
      have hargmax : npArgmax (npDiff ((runMask n s len).map boolToInt)) = s - 1 := by
        apply npArgmax_spec _ (s - 1) (by omega) 1
        · rw [npDiff_getD _ _ (by rw [List.length_map, runMask_length]; omega)]
          rw [show s - 1 + 1 = s by omega, ints_getD n s len s (by omega),
            ints_getD n s len (s - 1) (by omega)]
          rw [show s + n - s = n by omega, Nat.mod_self,
            show s - 1 + n - s = n - 1 by omega, Nat.mod_eq_of_lt (by omega)]
          rw [decide_eq_true hlen0, decide_eq_false (by omega : ¬(n - 1 < len))]
          rfl
        · intro i2 hi2
          rw [npDiff_getD _ _ (by rw [List.length_map, runMask_length]; omega)]
          rw [ints_getD n s len (i2 + 1) (by omega), ints_getD n s len i2 (by omega)]
          rw [show i2 + 1 + n - s = (i2 + 1) + n - s by omega]
          rw [Nat.mod_eq_of_lt (by omega : i2 + 1 + n - s < n),
            Nat.mod_eq_of_lt (by omega : i2 + n - s < n)]
          by_cases hQ : i2 + 1 + n - s < len
          · rw [decide_eq_true hQ, decide_eq_true (by omega : i2 + n - s < len)]
            norm_num [boolToInt]
          · rw [decide_eq_false hQ]
            cases hb2 : decide (i2 + n - s < len) <;> norm_num [boolToInt]
        · exact npDiff_boolToInt_le_one _
      rw [hargmax, show s - 1 + 1 = s by omega]

theorem assignAt_length (idx : List ℕ) : ∀ (vals base : List ℝ),
    (assignAt base idx vals).length = base.length := by
  induction idx with
  | nil =>
      intro vals base
      cases vals <;> rfl
  | cons i is ih =>
      intro vals base
      cases vals with
      | nil => rfl
      | cons v vs =>
          simp only [assignAt]
          rw [ih vs (base.set i v), List.length_set]

theorem assignAt_getD_notMem (idx : List ℕ) : ∀ (vals base : List ℝ) (p : ℕ),
    p ∉ idx → (assignAt base idx vals).getD p 0 = base.getD p 0 := by
  induction idx with
  | nil =>
      intro vals base p _
      cases vals <;> rfl
  | cons i is ih =>
      intro vals base p hp
      cases vals with
      | nil => rfl
      | cons v vs =>
          simp only [assignAt]
          rw [ih vs _ p (fun h => hp (List.mem_cons_of_mem _ h))]
          have hpi : p ≠ i := fun h => hp (h ▸ List.mem_cons_self _ _)
          by_cases hplen : p < base.length
          · rw [List.getD_eq_getElem _ _ (by rw [List.length_set]; exact hplen),
              List.getD_eq_getElem _ _ hplen]
            exact List.getElem_set_ne (Ne.symm hpi) _
          · rw [List.getD_eq_default _ _ (by rw [List.length_set]; omega),
              List.getD_eq_default _ _ (by omega)]

theorem assignAt_getD_at (idx : List ℕ) : ∀ (vals base : List ℝ) (j : ℕ),
    idx.Nodup → idx.length = vals.length → j < idx.length →
    idx.getD j 0 < base.length →
    (assignAt base idx vals).getD (idx.getD j 0) 0 = vals.getD j 0 := by
  induction idx with
  | nil =>
      intro vals base j _ _ hj _
      simp at hj
  | cons i is ih =>
      intro vals base j hnd hlen hj hlt
      cases vals with
      | nil => simp at hlen
      | cons v vs =>
          cases j with
          | zero =>
              simp only [List.getD_cons_zero] at hlt ⊢
              simp only [assignAt]
              rw [assignAt_getD_notMem is vs _ i (List.nodup_cons.1 hnd).1]
              rw [List.getD_eq_getElem _ _ (by rw [List.length_set]; exact hlt)]
              exact List.getElem_set_self _
          | succ jj =>
              simp only [List.getD_cons_succ] at hlt ⊢
              simp only [assignAt]
              exact ih vs (base.set i v) jj (List.nodup_cons.1 hnd).2
                (by simpa using hlen) (by simpa using hj)
                (by rw [List.length_set]; exact hlt)

theorem replicate_getD (n p : ℕ) : (List.replicate n (0 : ℝ)).getD p 0 = 0 := by
  by_cases hp : p < n
  · rw [List.getD_eq_getElem _ _ (by simpa using hp)]
    exact List.getElem_replicate _ _
  · rw [List.getD_eq_default _ _ (by simpa using hp)]

/-- Support of a window built by fancy-indexed assignment of nowhere-zero
values into an all-zero base: exactly the assigned index positions. -/
theorem assign_support (n : ℕ) (L : List ℕ) (vals : List ℝ)
    (hnd : L.Nodup) (hlen : L.length = vals.length) (hbound : ∀ q ∈ L, q < n)
    (hpos : ∀ j, j < vals.length → vals.getD j 0 ≠ 0) (p : ℕ) :
    ((assignAt (List.replicate n 0) L vals).getD p 0 ≠ 0 ↔ p ∈ L) := by
  by_cases hmem : p ∈ L
  · obtain ⟨j, hj, hget⟩ := List.getElem_of_mem hmem
    have hgetD : L.getD j 0 = p := by
      rw [List.getD_eq_getElem _ _ hj]
      exact hget
    have hres := assignAt_getD_at L vals (List.replicate n 0) j hnd hlen hj
      (by rw [hgetD, List.length_replicate]; exact hbound p hmem)
    rw [hgetD] at hres
    rw [hres]
    exact iff_of_true (hpos j (hlen ▸ hj)) hmem
  · rw [assignAt_getD_notMem L vals _ p hmem, replicate_getD]
    exact iff_of_false (by simp) hmem

theorem besselI0_summable (t : ℝ) :
    Summable (fun k : ℕ => ((t / 2) ^ 2) ^ k / ((k.factorial : ℝ)) ^ 2) := by
  apply Summable.of_nonneg_of_le (fun k => by positivity) (fun k => ?_)
    (Real.summable_pow_div_factorial ((t / 2) ^ 2))
  have h1 : (1 : ℝ) ≤ (k.factorial : ℝ) := by
    exact_mod_cast Nat.one_le_iff_ne_zero.2 (Nat.factorial_ne_zero k)
  calc ((t / 2) ^ 2) ^ k / ((k.factorial : ℝ)) ^ 2
      = ((t / 2) ^ 2) ^ k / (k.factorial : ℝ) * (1 / (k.factorial : ℝ)) := by
        ring
    _ ≤ ((t / 2) ^ 2) ^ k / (k.factorial : ℝ) * 1 := by
        apply mul_le_mul_of_nonneg_left _ (by positivity)
        exact div_le_one_of_le₀ h1 (by positivity)
    _ = ((t / 2) ^ 2) ^ k / (k.factorial : ℝ) := mul_one _

theorem one_le_besselI0 (t : ℝ) : 1 ≤ besselI0 t := by
  have h := le_tsum (besselI0_summable t) 0 (fun j _ => by positivity)
  simpa [Nat.factorial] using h

theorem besselI0_pos (t : ℝ) : 0 < besselI0 t :=
  lt_of_lt_of_le one_pos (one_le_besselI0 t)

theorem npKaiser_length (M : ℕ) (beta : ℝ) : (npKaiser M beta).length = M := by
  rw [npKaiser]
  by_cases h : M = 1
  · rw [if_pos h, h]
    rfl
  · rw [if_neg h]
    simp

theorem npKaiser_getD_pos (M : ℕ) (beta : ℝ) (j : ℕ) (hj : j < M) :
    0 < (npKaiser M beta).getD j 0 := by
  rw [npKaiser]
  by_cases h : M = 1
  · rw [if_pos h]
    have hj0 : j = 0 := by omega
    subst hj0
    norm_num
  · rw [if_neg h, getD_map_of_lt _ _ _ (by simpa using hj) 0 0]
    dsimp only
    exact div_pos (besselI0_pos _) (besselI0_pos _)

theorem linspace01_getD (m i : ℕ) (hi : i < m) :
    (linspace01 m).getD i 0 = (i : ℝ) / ((m : ℝ) - 1) := by
  rw [linspace01, getD_map_of_lt _ _ _ (by simpa using hi) 0 0]
  have hr : (List.range m).getD i 0 = i := by
    rw [List.getD_eq_getElem _ _ (by simpa using hi)]
    simp
  rw [hr]

theorem tukeyShape_pos (a x : ℝ) (ha0 : 0 < a) (_ha1 : a ≤ 1)
    (hx0 : 0 < x) (hx1 : x < 1) : 0 < tukeyShape a x := by
  have hπ := Real.pi_pos
  have ha : a ≠ 0 := ne_of_gt ha0
  rw [tukeyShape]
  by_cases h3 : x ≥ 1 - a / 2
  · rw [if_pos h3]
    set θ := 2 * Real.pi / a * (x - 1 + a / 2) with hθ
    have hθ0 : 0 ≤ θ := mul_nonneg (by positivity) (by linarith)
    have hθπ : θ < Real.pi := by
      have hlt : x - 1 + a / 2 < a / 2 := by linarith
      calc θ < 2 * Real.pi / a * (a / 2) :=
            mul_lt_mul_of_pos_left hlt (by positivity)
        _ = Real.pi := by
            field_simp
    have hid : 1 / 2 * (1 + Real.cos θ) = Real.cos (θ / 2) ^ 2 := by
      rw [Real.cos_sq, show 2 * (θ / 2) = θ by ring]
      ring
    rw [hid]
    have hcos : 0 < Real.cos (θ / 2) :=
      Real.cos_pos_of_mem_Ioo ⟨by linarith, by linarith⟩
    positivity
  · rw [if_neg h3]
    by_cases h1 : x < a / 2
    · rw [if_pos h1]
      set θ := 2 * Real.pi / a * (x - a / 2) with hθ
      have hθneg : θ ≤ 0 :=
        mul_nonpos_of_nonneg_of_nonpos (by positivity) (by linarith)
      have hθgt : -Real.pi < θ := by
        have hlt : -(a / 2) < x - a / 2 := by linarith
        calc -Real.pi = 2 * Real.pi / a * (-(a / 2)) := by
              field_simp
              ring
          _ < θ := mul_lt_mul_of_pos_left hlt (by positivity)
      have hid : 1 / 2 * (1 + Real.cos θ) = Real.cos (θ / 2) ^ 2 := by
        rw [Real.cos_sq, show 2 * (θ / 2) = θ by ring]
        ring
      rw [hid]
      have hcos : 0 < Real.cos (θ / 2) :=
        Real.cos_pos_of_mem_Ioo ⟨by linarith, by linarith⟩
      positivity
    · rw [if_neg h1]
      norm_num

theorem none_length (act : List Bool) : (tapering.none act).length = act.length := by
  simp [tapering.none]

theorem none_getD (act : List Bool) (p : ℕ) (hp : p < act.length) :
    (tapering.none act).getD p 0 = if act.getD p false = true then 1 else 0 := by
  rw [tapering.none, getD_map_of_lt _ _ _ hp false 0]

theorem none_sum (act : List Bool) :
    (tapering.none act).sum = (act.count true : ℝ) := by
  induction act with
  | nil => simp [tapering.none]
  | cons b t ih =>
      rw [tapering.none, List.map_cons, List.sum_cons,
        show List.map (fun b => if b = true then (1 : ℝ) else 0) t =
          tapering.none t from rfl, ih, List.count_cons]
      cases b
      · push_cast
        simp
      · push_cast
        simp
        ring

theorem kaiser_length (act : List Bool) (beta : ℝ) :
    (kaiser act beta).length = act.length := by
  simp only [kaiser]
  rw [assignAt_length, List.length_replicate]

theorem tukey_length (act : List Bool) (alpha : ℝ) :
    (tukey act alpha).length = act.length := by
  simp only [tukey]
  by_cases h : min (max alpha 0) 1 = 0
  · rw [if_pos h]
    exact none_length act
  · rw [if_neg h, assignAt_length, List.length_replicate]

theorem linspace01_length (m : ℕ) : (linspace01 m).length = m := by
  simp [linspace01]

theorem tukey_vals_length (a : ℝ) (len : ℕ) :
    (((((linspace01 (len + 2)).map (tukeyShape a)).drop 1).take len)).length = len := by
  rw [List.length_take, List.length_drop, List.length_map, linspace01_length]
  omega

theorem tukey_vals_pos (a : ℝ) (ha0 : 0 < a) (ha1 : a ≤ 1) (len j : ℕ)
    (hj : j < len) :
    0 < (((((linspace01 (len + 2)).map (tukeyShape a)).drop 1).take len)).getD j 0 := by
  have hlin : (linspace01 (len + 2)).length = len + 2 := linspace01_length _
  have hXlen : ((linspace01 (len + 2)).map (tukeyShape a)).length = len + 2 := by
    rw [List.length_map, hlin]
  have hget : (((((linspace01 (len + 2)).map (tukeyShape a)).drop 1).take len)).getD j 0
      = tukeyShape a (((1 + j : ℕ) : ℝ) / (((len + 2 : ℕ) : ℝ) - 1)) := by
    rw [List.getD_eq_getElem _ _ (by rw [tukey_vals_length]; exact hj)]
    rw [List.getElem_take, List.getElem_drop, List.getElem_map]
    congr 1
    have hD := linspace01_getD (len + 2) (1 + j) (by omega)
    rw [List.getD_eq_getElem _ _ (by rw [hlin]; omega)] at hD
    exact hD
  rw [hget]
  have hden : (0 : ℝ) < ((len + 2 : ℕ) : ℝ) - 1 := by
    push_cast
    linarith
  apply tukeyShape_pos a _ ha0 ha1
  · positivity
  · rw [div_lt_one hden]
    push_cast
    have : (j : ℝ) < len := by exact_mod_cast hj
    linarith

end tapering

/-- C4 (amended: the example set {95..100, 0..4} has 11 indices, not 10):
for a mask whose true entries are a single connected, possibly wrapping
run of length `len` starting at `s` (start 0 exactly when there is no
internal false-to-true boundary), every tapering window — `none`,
`kaiser`, `tukey` — has length `n`, is exactly 0 at every index outside
the run, is nonzero at every index of the run, and the window index list
is the index ring rotated so the run start comes first and truncated to
the run length (entry `j` is `(s + j) % n`). -/
theorem tapering_window_support (n s len : ℕ) (beta alpha : ℝ) (hn : 0 < n)
    (hs : s < n) (hlen : len ≤ n) (hlen0 : 0 < len) (hsn : len = n → s = 0) :
    (tapering._windowidx (tapering.runMask n s len) =
      (tapering.npRoll (List.range n) s).take len) ∧
    (∀ j, j < len →
      ((tapering.npRoll (List.range n) s).take len).getD j 0 = (s + j) % n) ∧
    (∀ W, (W = tapering.none (tapering.runMask n s len) ∨
           W = tapering.kaiser (tapering.runMask n s len) beta ∨
           W = tapering.tukey (tapering.runMask n s len) alpha) →
      W.length = n ∧
      ∀ p, p < n →
        (W.getD p 0 ≠ 0 ↔ (tapering.runMask n s len).getD p false = true)) := by
  have hwin := tapering.windowidx_runMask n s len hn hs hlen hlen0 hsn
  have hLlen := tapering.npRoll_range_take_length n s len (le_of_lt hs) hlen
  have hLnd := tapering.nodup_npRoll_range_take n s len
  have hLbound : ∀ q ∈ (tapering.npRoll (List.range n) s).take len, q < n :=
    fun q hq => tapering.mem_npRoll_range_take_lt n s len q hq
  have hmem : ∀ p, p < n →
      (p ∈ (tapering.npRoll (List.range n) s).take len ↔
        (tapering.runMask n s len).getD p false = true) := by
    intro p hp
    rw [tapering.runMask_getD_iff n s len p hp]
    exact tapering.mem_npRoll_range_take n s len p hn hs hlen hp
  refine ⟨hwin, fun j hj => tapering.npRoll_range_take_getD n s len j hs hlen hj, ?_⟩
  intro W hW
  rcases hW with h | h | h
  · subst h
    refine ⟨by rw [tapering.none_length, tapering.runMask_length], ?_⟩
    intro p hp
    rw [tapering.none_getD _ p (by rw [tapering.runMask_length]; exact hp)]
    by_cases hmask : (tapering.runMask n s len).getD p false = true <;>
      simp [hmask]
  · subst h
    refine ⟨by rw [tapering.kaiser_length, tapering.runMask_length], ?_⟩
    intro p hp
    have hk : tapering.kaiser (tapering.runMask n s len) beta =
        tapering.assignAt (List.replicate n 0)
          ((tapering.npRoll (List.range n) s).take len)
          (tapering.npKaiser ((tapering.npRoll (List.range n) s).take len).length
            beta) := by
      simp only [tapering.kaiser]
      rw [hwin, tapering.runMask_length]
    rw [hk, tapering.assign_support n _ _ hLnd
      (tapering.npKaiser_length _ beta).symm hLbound
      (fun j hjv => ne_of_gt (tapering.npKaiser_getD_pos _ beta j
        (by rwa [tapering.npKaiser_length] at hjv))) p]
    exact hmem p hp
  · subst h
    refine ⟨by rw [tapering.tukey_length, tapering.runMask_length], ?_⟩
    intro p hp
    simp only [tapering.tukey]
    by_cases ha : min (max alpha 0) 1 = 0
    · rw [if_pos ha]
      rw [tapering.none_getD _ p (by rw [tapering.runMask_length]; exact hp)]
      by_cases hmask : (tapering.runMask n s len).getD p false = true <;>
        simp [hmask]
    · rw [if_neg ha]
      have ha0 : 0 < min (max alpha 0) 1 :=
        lt_of_le_of_ne (le_min (le_max_right alpha 0) zero_le_one) (Ne.symm ha)
      have ha1 : min (max alpha 0) 1 ≤ 1 := min_le_right _ _
      rw [hwin, tapering.runMask_length]
      rw [tapering.assign_support n _ _ hLnd
        (tapering.tukey_vals_length (min (max alpha 0) 1) _).symm hLbound
        (fun j hjv => ne_of_gt (tapering.tukey_vals_pos _ ha0 ha1 _ j
          (by rwa [tapering.tukey_vals_length] at hjv))) p]
      exact hmem p hp

theorem tapering_window_support_witness :
    (tapering._windowidx (tapering.runMask 101 95 11) =
      (tapering.npRoll (List.range 101) 95).take 11) ∧
    (∀ j, j < 11 →
      ((tapering.npRoll (List.range 101) 95).take 11).getD j 0 = (95 + j) % 101) ∧
    (∀ W, (W = tapering.none (tapering.runMask 101 95 11) ∨
           W = tapering.kaiser (tapering.runMask 101 95 11) 6 ∨
           W = tapering.tukey (tapering.runMask 101 95 11) (1 / 2)) →
      W.length = 101 ∧
      ∀ p, p < 101 →
        (W.getD p 0 ≠ 0 ↔ (tapering.runMask 101 95 11).getD p false = true)) :=
  tapering_window_support 101 95 11 6 (1 / 2) (by norm_num) (by norm_num)
    (by norm_num) (by norm_num) (by omega)

/-- C4 counterexample to the example's "10-index" cardinality: the wrapped
set {95..100, 0..4} of a 101-length mask has 11 indices, so the window
support (which the amended theorem shows equals the mask's true-set, read
off the window index list) has 11 entries, not 10. -/
theorem tapering_wraparound_count_counterexample :
    (∀ i, i < 101 → ((tapering.runMask 101 95 11).getD i false = true ↔
      ((95 ≤ i ∧ i ≤ 100) ∨ i ≤ 4))) ∧
    (tapering._windowidx (tapering.runMask 101 95 11)).length = 11 ∧
    (tapering.runMask 101 95 11).count true = 11 ∧
    (11 : ℕ) ≠ 10 := by
  refine ⟨by decide, by decide, by decide, by decide⟩

/-- C6: the Tukey parameter is clipped into [0,1] (never rejected:
pre-clipping the argument changes nothing), `tukey` with α ≤ 0 degenerates
to the `none` window, the `none` window sums to the number of true mask
entries, and for 0 < α ≤ 1 on a gap-free run mask the first and last
active samples (positions `s` and `(s+len−1) mod n`) get strictly positive
values — the two zero endpoint samples of the length `run+2` ramp are
dropped. -/
theorem tukey_clip_none_endpoints (n s len : ℕ) (alpha : ℝ) (hn : 0 < n)
    (hs : s < n) (hlen : len ≤ n) (hlen0 : 0 < len) (hsn : len = n → s = 0)
    (h0 : 0 < alpha) (h1 : alpha ≤ 1) :
    (∀ (act : List Bool) (al : ℝ),
      tapering.tukey act al = tapering.tukey act (min (max al 0) 1)) ∧
    (∀ (act : List Bool) (al : ℝ), al ≤ 0 →
      tapering.tukey act al = tapering.none act) ∧
    (∀ act : List Bool, (tapering.none act).sum = (act.count true : ℝ)) ∧
    0 < (tapering.tukey (tapering.runMask n s len) alpha).getD s 0 ∧
    0 < (tapering.tukey (tapering.runMask n s len) alpha).getD
      ((s + len - 1) % n) 0 := by
  have hwin := tapering.windowidx_runMask n s len hn hs hlen hlen0 hsn
  have hLlen := tapering.npRoll_range_take_length n s len (le_of_lt hs) hlen
  have hLnd := tapering.nodup_npRoll_range_take n s len
  have hclipa : min (max alpha 0) 1 = alpha := by
    rw [max_eq_left h0.le, min_eq_left h1]
  have hval : ∀ j, j < len →
      (tapering.tukey (tapering.runMask n s len) alpha).getD ((s + j) % n) 0 =
        ((((tapering.linspace01 (((tapering.npRoll (List.range n) s).take len).length
            + 2)).map (tapering.tukeyShape alpha)).drop 1).take
          ((tapering.npRoll (List.range n) s).take len).length).getD j 0 := by
    intro j hj
    have hLgetD := tapering.npRoll_range_take_getD n s len j hs hlen hj
    simp only [tapering.tukey]
    rw [hclipa, if_neg (ne_of_gt h0), hwin, tapering.runMask_length]
    rw [← hLgetD]
    exact tapering.assignAt_getD_at _ _ _ j hLnd
      (tapering.tukey_vals_length alpha _).symm (by rw [hLlen]; exact hj)
      (by rw [List.length_replicate, hLgetD]; exact Nat.mod_lt _ hn)
  refine ⟨?_, ?_, tapering.none_sum, ?_, ?_⟩
  · intro act al
    have hclip : min (max (min (max al 0) 1) 0) 1 = min (max al 0) 1 := by
      rw [max_eq_left (le_min (le_max_right al 0) zero_le_one),
        min_eq_left (min_le_right _ _)]
    simp only [tapering.tukey]
    rw [hclip]
  · intro act al hal
    simp only [tapering.tukey]
    rw [max_eq_right hal, min_eq_left zero_le_one, if_pos rfl]
  · have h := hval 0 hlen0
    rw [Nat.add_zero, Nat.mod_eq_of_lt hs] at h
    rw [h]
    exact tapering.tukey_vals_pos alpha h0 h1 _ 0 (by rw [hLlen]; exact hlen0)
  · have h := hval (len - 1) (by omega)
    rw [show s + (len - 1) = s + len - 1 by omega] at h
    rw [h]
    exact tapering.tukey_vals_pos alpha h0 h1 _ (len - 1) (by rw [hLlen]; omega)

theorem tukey_clip_none_endpoints_witness :
    (∀ (act : List Bool) (al : ℝ),
      tapering.tukey act al = tapering.tukey act (min (max al 0) 1)) ∧
    (∀ (act : List Bool) (al : ℝ), al ≤ 0 →
      tapering.tukey act al = tapering.none act) ∧
    (∀ act : List Bool, (tapering.none act).sum = (act.count true : ℝ)) ∧
    0 < (tapering.tukey (tapering.runMask 101 95 11) (1 / 2)).getD 95 0 ∧
    0 < (tapering.tukey (tapering.runMask 101 95 11) (1 / 2)).getD
      ((95 + 11 - 1) % 101) 0 :=
  tukey_clip_none_endpoints 101 95 11 (1 / 2) (by norm_num) (by norm_num)
    (by norm_num) (by norm_num) (by omega) (by norm_num) (by norm_num)

end SFS
